import Mathlib

/-!
Verification of the pattern-extraction and identifier-classification engine
of `src/telanlys.py` (functions `analyze_messages`, `get_identifier_type`,
and the candidate-selection step of `main`).

Messages are modelled as `List Char` (Python `str`, restricted to the ASCII
fragment the spec commits to: ASCII digit runs, ASCII whitespace trimming).
-/

/-- ASCII whitespace recognised by Python `str.strip()` with no argument
(space, tab, newline, carriage return, vertical tab, form feed). -/
def isPySpace (c : Char) : Bool :=
  c = ' ' || c = '\t' || c = '\n' || c = '\r' || c = '\x0b' || c = '\x0c'

/-- Python `str.strip()`: drop leading and trailing whitespace. -/
def pyStrip (s : List Char) : List Char :=
  ((s.dropWhile isPySpace).reverse.dropWhile isPySpace).reverse

/-- Accumulator-based scan behind `digitRuns`; `acc` holds the current run
reversed. Embeds the left-to-right maximal-munch scan of `re.findall`. -/
def digitRunsAux : List Char → List Char → List (List Char)
  | acc, [] => if acc.isEmpty then [] else [acc.reverse]
  | acc, c :: cs =>
    if c.isDigit then digitRunsAux (c :: acc) cs
    else if acc.isEmpty then digitRunsAux [] cs
    else acc.reverse :: digitRunsAux [] cs

/-- All maximal runs of consecutive ASCII digits in a message, left to right:
the model of `re.findall(r'\d+', msg)` (line 37 of `telanlys.py`). -/
def digitRuns (s : List Char) : List (List Char) :=
  digitRunsAux [] s

/-- Python `max(best :: rest, key=len)`: CPython keeps the current maximum
unless a later element is strictly longer, so the first run of maximal
length wins (line 41 of `telanlys.py`). -/
def pickMax (best : List Char) : List (List Char) → List Char
  | [] => best
  | y :: ys => if best.length < y.length then pickMax y ys else pickMax best ys

/-- The identifier `analyze_messages` chooses for one message:
`max(re.findall(r'\d+', msg), key=len)`; `[]` when the message has no digit
run (that case is guarded by the early `return None`). -/
def identOf (msg : List Char) : List Char :=
  match digitRuns msg with
  | [] => []
  | r :: rs => pickMax r rs

/-- The fixed placeholder `'<ID>'`. -/
def PLACEHOLDER : List Char := "<ID>".data

/-- Fuel-indexed worker for `replaceAll`; fuel is the length of the suffix
still to scan, so the `(0, c :: cs)` arm is never reached from `replaceAll`. -/
def replaceAllAux (pat repl : List Char) : Nat → List Char → List Char
  | _, [] => []
  | 0, s => s
  | fuel + 1, c :: cs =>
    if (!pat.isEmpty) && pat.isPrefixOf (c :: cs) then
      repl ++ replaceAllAux pat repl fuel (cs.drop (pat.length - 1))
    else
      c :: replaceAllAux pat repl fuel cs

/-- Replacement of every non-overlapping occurrence of `pat` by `repl`,
scanning left to right: the model of `re.sub(re.escape(identifier), '<ID>',
msg)` on line 43 of `telanlys.py` (`re.escape` of a digit string is the
literal digit string, and `re.sub` with the default `count=0` replaces all
occurrences). -/
def replaceAll (pat repl s : List Char) : List Char :=
  replaceAllAux pat repl s.length s

/-- The template `analyze_messages` computes for one message:
`re.sub(re.escape(identifier), '<ID>', msg).strip()`. -/
def tmplOf (msg : List Char) : List Char :=
  pyStrip (replaceAll (identOf msg) PLACEHOLDER msg)

/-- One iteration of the loop in `analyze_messages` (lines 36-44): the
Identifier Extractor of spec section 4.1. `none` models the early
`return None` when `re.findall` yields no digit run. -/
def extract (msg : List Char) : Option (List Char × List Char) :=
  if digitRuns msg = [] then none else some (tmplOf msg, identOf msg)

/-- The loop of `analyze_messages`: accumulate the per-message templates and
identifiers in input order, failing as soon as any message has no digit run. -/
def collect : List (List Char) → Option (List (List Char) × List (List Char))
  | [] => some ([], [])
  | m :: ms =>
    match extract m with
    | none => none
    | some (t, id) =>
      match collect ms with
      | none => none
      | some (ts, ids) => some (t :: ts, id :: ids)

/-- The dictionary `analyze_messages` returns on success. -/
structure AnalysisResult where
  pattern : List Char
  identifiers : List (List Char)
deriving DecidableEq

/-- Model of `analyze_messages(messages)` (lines 31-46 of `telanlys.py`).
`patterns.dedup.length = 1` models `len(set(patterns)) == 1`; the inner
match on `patterns[0]?` models the index access `patterns[0]`, whose `none`
arm corresponds to a Python `IndexError` (shown unreachable below). -/
def analyze_messages (msgs : List (List Char)) : Option AnalysisResult :=
  match collect msgs with
  | none => none
  | some (patterns, identifiers) =>
    if patterns.dedup.length = 1 then
      match patterns[0]? with
      | some p => some ⟨p, identifiers⟩
      | none => none
    else none

/-- Label suffix for all-digit identifiers. -/
def numericSuffix : String := "-digit numeric"

/-- Label suffix for alphanumeric (not all-digit) identifiers. -/
def alnumSuffix : String := "-digit alphanumeric"

/-- Label for identifiers that are neither all digits nor alphanumeric. -/
def mixedLabel : String := "mixed formats"

/-- The join separator of `get_identifier_type`. -/
def sepBar : String := " | "

/-- Python `str.isdigit()` restricted to ASCII: non-empty and all digits. -/
def pyIsDigit (s : List Char) : Bool := !s.isEmpty && s.all Char.isDigit

/-- Python `str.isalnum()` restricted to ASCII: non-empty and all
letters or digits. -/
def pyIsAlnum (s : List Char) : Bool := !s.isEmpty && s.all Char.isAlphanum

/-- The bucket label one identifier contributes in `get_identifier_type`
(lines 51-57 of `telanlys.py`). -/
def bucketLabel (id : List Char) : String :=
  if pyIsDigit id then toString id.length ++ numericSuffix
  else if pyIsAlnum id then toString id.length ++ alnumSuffix
  else mixedLabel

/-- Lexicographic code-point comparison of character lists: the order
Python `sorted` uses on strings. -/
def listCharLe : List Char → List Char → Bool
  | [], _ => true
  | _ :: _, [] => false
  | a :: as, b :: bs =>
    if a.toNat < b.toNat then true
    else if b.toNat < a.toNat then false
    else listCharLe as bs

/-- Lexicographic code-point comparison of strings. -/
def strLeb (a b : String) : Bool := listCharLe a.data b.data

/-- Model of `get_identifier_type(identifiers)` (lines 48-58 of
`telanlys.py`): the Python `set` of labels is modelled as `dedup` of the
label list (same distinct elements), then `sorted` and `" | ".join`. -/
def get_identifier_type (ids : List (List Char)) : String :=
  String.intercalate sepBar
    (List.insertionSort (fun a b : String => strLeb a b = true) ((ids.map bucketLabel).dedup))

/-- Bucket written from the words of the spec (section 4.2 / claim C7):
all characters digits, else all characters alphanumeric, else mixed; to be
compared with `bucketLabel` from the source. -/
def bucketSpec (id : List Char) : String :=
  if id.all Char.isDigit then toString id.length ++ numericSuffix
  else if id.all Char.isAlphanum then toString id.length ++ alnumSuffix
  else mixedLabel

/-- Replacement of only the first occurrence of `pat`, written from the
words of claim C1 ("only the first occurrence of the chosen identifier
substring replaced"); to be compared with `replaceAll` from the source. -/
def replaceFirst (pat repl : List Char) : List Char → List Char
  | [] => []
  | c :: cs =>
    if (!pat.isEmpty) && pat.isPrefixOf (c :: cs) then
      repl ++ cs.drop (pat.length - 1)
    else
      c :: replaceFirst pat repl cs

/-- Whether `pat` occurs as a contiguous substring of `s`. -/
def containsSub (pat : List Char) : List Char → Bool
  | [] => pat.isEmpty
  | c :: cs => pat.isPrefixOf (c :: cs) || containsSub pat cs

/-- The frequency threshold `MIN_OCCURRENCES` (line 13 of `telanlys.py`). -/
def MIN_OCCURRENCES : Nat := 3

/-- Candidate selection of `main` (lines 82-86 of `telanlys.py`): the
distinct destination numbers with at least `MIN_OCCURRENCES` traffic rows
and not in the known-numbers registry. `rows` is the column of destination
numbers and `known` the registry, both after the upstream lowercase/strip
normalisation; pandas `value_counts` (unique values with their counts) is
modelled as `dedup` with `count`, keeping the same set of values. -/
def candidateNumbers (rows known : List String) : List String :=
  ((rows.dedup.filter fun n => decide (MIN_OCCURRENCES ≤ rows.count n)).filter
    fun n => decide (¬ n ∈ known))

/-! ### Order lemmas for the sorting relation -/

theorem listCharLe_cons_iff (a b : Char) (as bs : List Char) :
    listCharLe (a :: as) (b :: bs) = true ↔
      a.toNat < b.toNat ∨ (a.toNat = b.toNat ∧ listCharLe as bs = true) := by
  simp only [listCharLe]
  by_cases h1 : a.toNat < b.toNat
  · simp [h1]
  · by_cases h2 : b.toNat < a.toNat
    · simp only [if_neg h1, if_pos h2]
      constructor
      · intro h; exact absurd h (by simp)
      · rintro (h | ⟨h, _⟩) <;> omega
    · have heq : a.toNat = b.toNat := by omega
      simp only [if_neg h1, if_neg h2]
      simp [heq, h1]

theorem listCharLe_total (x : List Char) :
    ∀ y, listCharLe x y = true ∨ listCharLe y x = true := by
  induction x with
  | nil => intro y; left; simp [listCharLe]
  | cons a as ih =>
    intro y
    cases y with
    | nil => right; simp [listCharLe]
    | cons b bs =>
      rcases Nat.lt_trichotomy a.toNat b.toNat with h | h | h
      · left; rw [listCharLe_cons_iff]; exact Or.inl h
      · rcases ih bs with h' | h'
        · left; rw [listCharLe_cons_iff]; exact Or.inr ⟨h, h'⟩
        · right; rw [listCharLe_cons_iff]; exact Or.inr ⟨h.symm, h'⟩
      · right; rw [listCharLe_cons_iff]; exact Or.inl h

theorem listCharLe_trans (x : List Char) :
    ∀ y z, listCharLe x y = true → listCharLe y z = true → listCharLe x z = true := by
  induction x with
  | nil => intro y z _ _; simp [listCharLe]
  | cons a as ih =>
    intro y z hxy hyz
    cases y with
    | nil => simp [listCharLe] at hxy
    | cons b bs =>
      cases z with
      | nil => simp [listCharLe] at hyz
      | cons c cs =>
        rw [listCharLe_cons_iff] at hxy hyz ⊢
        rcases hxy with h1 | ⟨h1, h1'⟩ <;> rcases hyz with h2 | ⟨h2, h2'⟩
        · exact Or.inl (Nat.lt_trans h1 h2)
        · exact Or.inl (h2 ▸ h1)
        · exact Or.inl (h1 ▸ h2)
        · exact Or.inr ⟨h1.trans h2, ih bs cs h1' h2'⟩

theorem char_toNat_inj {a b : Char} (h : a.toNat = b.toNat) : a = b :=
  Char.eq_of_val_eq (UInt32.ext h)

theorem listCharLe_antisymm (x : List Char) :
    ∀ y, listCharLe x y = true → listCharLe y x = true → x = y := by
  induction x with
  | nil =>
    intro y _ hyx
    cases y with
    | nil => rfl
    | cons b bs => simp [listCharLe] at hyx
  | cons a as ih =>
    intro y hxy hyx
    cases y with
    | nil => simp [listCharLe] at hxy
    | cons b bs =>
      rw [listCharLe_cons_iff] at hxy hyx
      rcases hxy with h1 | ⟨h1, h1'⟩ <;> rcases hyx with h2 | ⟨h2, h2'⟩
      · omega
      · omega
      · omega
      · rw [char_toNat_inj h1, ih bs h1' h2']

/-- The sorting relation used in `get_identifier_type` is total. -/
instance : IsTotal String fun a b => strLeb a b = true :=
  ⟨fun a b => listCharLe_total a.data b.data⟩

/-- The sorting relation used in `get_identifier_type` is transitive. -/
instance : IsTrans String fun a b => strLeb a b = true :=
  ⟨fun a b c => listCharLe_trans a.data b.data c.data⟩

/-- The sorting relation used in `get_identifier_type` is antisymmetric. -/
instance : IsAntisymm String fun a b => strLeb a b = true :=
  ⟨fun a b h h' => by
    cases a with
    | mk d1 =>
      cases b with
      | mk d2 =>
        have hd : d1 = d2 := listCharLe_antisymm d1 d2 h h'
        rw [hd]⟩

/-! ### Unfolding lemmas for `replaceAll` -/

theorem replaceAllAux_nil (pat repl : List Char) (fuel : Nat) :
    replaceAllAux pat repl fuel [] = [] := by
  cases fuel <;> rfl

theorem replaceAllAux_fuel (pat repl : List Char) :
    ∀ f1, ∀ f2, ∀ s : List Char, s.length ≤ f1 → s.length ≤ f2 →
      replaceAllAux pat repl f1 s = replaceAllAux pat repl f2 s := by
  intro f1
  induction f1 with
  | zero =>
    intro f2 s hs1 _
    have : s = [] := List.eq_nil_of_length_eq_zero (Nat.le_zero.mp hs1)
    subst this
    rw [replaceAllAux_nil, replaceAllAux_nil]
  | succ f1 ih =>
    intro f2 s hs1 hs2
    cases s with
    | nil => rw [replaceAllAux_nil, replaceAllAux_nil]
    | cons c cs =>
      cases f2 with
      | zero => simp at hs2
      | succ f2 =>
        simp only [replaceAllAux]
        split
        · have hlen : (cs.drop (pat.length - 1)).length ≤ cs.length := by
            simp [List.length_drop]
          have h1 : cs.length ≤ f1 := by simpa using hs1
          have h2 : cs.length ≤ f2 := by simpa using hs2
          rw [ih f2 (cs.drop (pat.length - 1)) (hlen.trans h1) (hlen.trans h2)]
        · have h1 : cs.length ≤ f1 := by simpa using hs1
          have h2 : cs.length ≤ f2 := by simpa using hs2
          rw [ih f2 cs h1 h2]

theorem replaceAll_nil (pat repl : List Char) : replaceAll pat repl [] = [] := rfl

theorem replaceAll_cons (pat repl : List Char) (c : Char) (cs : List Char) :
    replaceAll pat repl (c :: cs) =
      if (!pat.isEmpty) && pat.isPrefixOf (c :: cs) then
        repl ++ replaceAll pat repl (cs.drop (pat.length - 1))
      else
        c :: replaceAll pat repl cs := by
  show replaceAllAux pat repl (c :: cs).length (c :: cs) = _
  rw [show (c :: cs).length = cs.length + 1 from rfl]
  simp only [replaceAllAux]
  split
  · rw [replaceAllAux_fuel pat repl cs.length (cs.drop (pat.length - 1)).length
      (cs.drop (pat.length - 1)) (by simp [List.length_drop]) le_rfl]
    rfl
  · rfl

/-! ### Occurrence-based characterisation of `replaceAll` -/

theorem isPrefixOf_append_self (p b : List Char) : p.isPrefixOf (p ++ b) = true := by
  induction p with
  | nil => cases b <;> rfl
  | cons x xs _ih => simp [List.isPrefixOf]

/-- A string with no occurrence of the pattern is left unchanged. -/
theorem replaceAll_of_not_contains (pat repl : List Char) :
    ∀ s, containsSub pat s = false → replaceAll pat repl s = s := by
  intro s
  induction s with
  | nil => intro _; exact replaceAll_nil pat repl
  | cons c cs ih =>
    intro h
    simp only [containsSub, Bool.or_eq_false_iff] at h
    rw [replaceAll_cons, if_neg, ih h.2]
    simp [h.1]

/-- At the first occurrence of the pattern, `replaceAll` substitutes the
replacement and continues on the remainder of the string (hence later
occurrences are replaced as well). -/
theorem replaceAll_first_occurrence (pat repl : List Char) (hpat : pat ≠ []) :
    ∀ a b : List Char,
      (∀ i, i < a.length → pat.isPrefixOf ((a ++ (pat ++ b)).drop i) = false) →
      replaceAll pat repl (a ++ (pat ++ b)) = a ++ (repl ++ replaceAll pat repl b) := by
  intro a
  induction a with
  | nil =>
    intro b _
    match pat, hpat with
    | p :: pt, _ =>
      simp only [List.nil_append]
      rw [show (p :: pt) ++ b = p :: (pt ++ b) from rfl, replaceAll_cons, if_pos]
      · rw [show (p :: pt).length - 1 = pt.length from rfl, List.drop_left]
      · have := isPrefixOf_append_self (p :: pt) b
        simp only [List.cons_append] at this
        simp [this]
  | cons c a' ih =>
    intro b hnocc
    have h0 : pat.isPrefixOf (c :: (a' ++ (pat ++ b))) = false := by
      have h' := hnocc 0 (by simp)
      simpa using h'
    have hrest : ∀ i, i < a'.length → pat.isPrefixOf ((a' ++ (pat ++ b)).drop i) = false := by
      intro i hi
      have h' := hnocc (i + 1) (by simp; omega)
      simpa using h'
    calc replaceAll pat repl ((c :: a') ++ (pat ++ b))
        = replaceAll pat repl (c :: (a' ++ (pat ++ b))) := by rw [List.cons_append]
      _ = c :: replaceAll pat repl (a' ++ (pat ++ b)) := by
          rw [replaceAll_cons, if_neg (by simp [h0])]
      _ = c :: (a' ++ (repl ++ replaceAll pat repl b)) := by rw [ih b hrest]
      _ = (c :: a') ++ (repl ++ replaceAll pat repl b) := by simp

/-! ### Digit runs are non-empty; `pickMax` picks the first longest -/

theorem digitRunsAux_ne_nil (s : List Char) :
    ∀ acc, ∀ r ∈ digitRunsAux acc s, r ≠ [] := by
  induction s with
  | nil =>
    intro acc r hr
    simp only [digitRunsAux] at hr
    split at hr
    · simp at hr
    · rename_i hacc
      simp only [List.mem_singleton] at hr
      subst hr
      simpa [List.isEmpty_iff] using hacc
  | cons c cs ih =>
    intro acc r hr
    simp only [digitRunsAux] at hr
    split at hr
    · exact ih (c :: acc) r hr
    · split at hr
      · exact ih [] r hr
      · rename_i hacc
        rcases List.mem_cons.mp hr with h | h
        · subst h
          simpa [List.isEmpty_iff] using hacc
        · exact ih [] r h

theorem digitRuns_ne_nil (s : List Char) : ∀ r ∈ digitRuns s, r ≠ [] :=
  digitRunsAux_ne_nil s []

/-- Python `max(x :: l, key=len)` characterised: the result occurs in the
list, every element is at most as long, and every element strictly before
the returned occurrence is strictly shorter (first maximum wins). -/
theorem pickMax_first_longest (x : List Char) (l : List (List Char)) :
    ∃ pre post, x :: l = pre ++ pickMax x l :: post ∧
      (∀ r ∈ x :: l, r.length ≤ (pickMax x l).length) ∧
      (∀ r ∈ pre, r.length < (pickMax x l).length) := by
  induction l generalizing x with
  | nil =>
    refine ⟨[], [], rfl, ?_, by simp⟩
    intro r hr
    rcases List.mem_singleton.mp hr with h
    simp [h, pickMax]
  | cons y ys ih =>
    by_cases h : x.length < y.length
    · obtain ⟨pre, post, hdec, hle, hlt⟩ := ih y
      have hylen : y.length ≤ (pickMax y ys).length := hle y (List.mem_cons_self y ys)
      have hpick : pickMax x (y :: ys) = pickMax y ys := by simp [pickMax, h]
      refine ⟨x :: pre, post, ?_, ?_, ?_⟩
      · rw [hpick, List.cons_append, ← hdec]
      · intro r hr
        rw [hpick]
        rcases List.mem_cons.mp hr with h' | h'
        · subst h'; omega
        · exact hle r h'
      · intro r hr
        rw [hpick]
        rcases List.mem_cons.mp hr with h' | h'
        · subst h'; omega
        · exact hlt r h'
    · obtain ⟨pre, post, hdec, hle, hlt⟩ := ih x
      have hxlen : x.length ≤ (pickMax x ys).length := hle x (List.mem_cons_self x ys)
      have hpick : pickMax x (y :: ys) = pickMax x ys := by simp [pickMax, h]
      cases pre with
      | nil =>
        simp only [List.nil_append] at hdec
        injection hdec with hx hpost
        refine ⟨[], y :: ys, ?_, ?_, by simp⟩
        · rw [hpick, ← hx]
          rfl
        · intro r hr
          rw [hpick]
          rcases List.mem_cons.mp hr with h' | h'
          · subst h'; omega
          · rcases List.mem_cons.mp h' with h'' | h''
            · subst h''; omega
            · exact hle r (List.mem_cons_of_mem x h'')
      | cons p pre' =>
        simp only [List.cons_append] at hdec
        injection hdec with hp hys
        subst hp
        have hxlt : x.length < (pickMax x ys).length :=
          hlt x (List.mem_cons_self x pre')
        refine ⟨x :: y :: pre', post, ?_, ?_, ?_⟩
        · rw [hpick]
          nth_rewrite 1 [hys]
          simp
        · intro r hr
          rw [hpick]
          rcases List.mem_cons.mp hr with h' | h'
          · subst h'; omega
          · rcases List.mem_cons.mp h' with h'' | h''
            · subst h''; omega
            · exact hle r (List.mem_cons_of_mem x h'')
        · intro r hr
          rw [hpick]
          rcases List.mem_cons.mp hr with h' | h'
          · subst h'; omega
          · rcases List.mem_cons.mp h' with h'' | h''
            · subst h''; omega
            · exact hlt r (List.mem_cons_of_mem x h'')

/-! ### Lemmas about the accumulation loop `collect` -/

theorem extract_of_runs {msg : List Char} (h : digitRuns msg ≠ []) :
    extract msg = some (tmplOf msg, identOf msg) := by
  simp [extract, h]

theorem collect_of_runs (msgs : List (List Char))
    (hall : ∀ m ∈ msgs, digitRuns m ≠ []) :
    collect msgs = some (msgs.map tmplOf, msgs.map identOf) := by
  induction msgs with
  | nil => rfl
  | cons m ms ih =>
    have hm : digitRuns m ≠ [] := hall m (List.mem_cons_self m ms)
    have hms : ∀ m' ∈ ms, digitRuns m' ≠ [] :=
      fun m' h => hall m' (List.mem_cons_of_mem m h)
    simp only [collect, extract_of_runs hm, ih hms, List.map_cons]

theorem collect_none_of_missing_runs (msgs : List (List Char))
    (h : ∃ m ∈ msgs, digitRuns m = []) : collect msgs = none := by
  induction msgs with
  | nil => simp at h
  | cons m ms ih =>
    rcases h with ⟨m', hm', hrun⟩
    rcases List.mem_cons.mp hm' with h' | h'
    · subst h'
      simp only [collect, extract, if_pos hrun]
    · by_cases hm : digitRuns m = []
      · simp only [collect, extract, if_pos hm]
      · have hc : collect ms = none := ih ⟨m', h', hrun⟩
        simp only [collect, extract_of_runs hm, hc]

theorem collect_lengths (msgs : List (List Char)) :
    ∀ ps ids, collect msgs = some (ps, ids) →
      ps.length = msgs.length ∧ ids.length = msgs.length := by
  induction msgs with
  | nil =>
    intro ps ids h
    simp only [collect, Option.some.injEq, Prod.mk.injEq] at h
    rcases h with ⟨h1, h2⟩
    simp [← h1, ← h2]
  | cons m ms ih =>
    intro ps ids h
    cases he : extract m with
    | none => simp [collect, he] at h
    | some p =>
      cases hc : collect ms with
      | none => simp [collect, he, hc] at h
      | some q =>
        obtain ⟨t, id⟩ := p
        obtain ⟨ts, ids'⟩ := q
        simp only [collect, he, hc, Option.some.injEq, Prod.mk.injEq] at h
        rcases h with ⟨h1, h2⟩
        obtain ⟨hl1, hl2⟩ := ih ts ids' hc
        subst h1; subst h2
        simp [hl1, hl2]

/-- For a non-empty list, `len(set(l)) == 1` says exactly that all elements
are equal. -/
theorem dedup_length_eq_one {α : Type} [DecidableEq α] (l : List α) (hne : l ≠ []) :
    l.dedup.length = 1 ↔ ∃ a, ∀ x ∈ l, x = a := by
  constructor
  · intro h
    obtain ⟨a, ha⟩ := List.length_eq_one.mp h
    refine ⟨a, fun x hx => ?_⟩
    have : x ∈ l.dedup := List.mem_dedup.mpr hx
    rw [ha] at this
    exact List.mem_singleton.mp this
  · rintro ⟨a, ha⟩
    have : l.dedup = [a] := by
      induction l with
      | nil => exact absurd rfl hne
      | cons x t ih =>
        cases t with
        | nil =>
          have hx : x = a := ha x (List.mem_singleton.mpr rfl)
          simp [List.dedup, hx]
        | cons y t' =>
          have hx : x = a := ha x (List.mem_cons_self _ _)
          have hy : y = a := ha y (List.mem_cons_of_mem x (List.mem_cons_self _ _))
          have hmem : x ∈ y :: t' := by
            rw [hx, ← hy]; exact List.mem_cons_self _ _
          rw [List.dedup_cons_of_mem hmem]
          exact ih (by simp) (fun z hz => ha z (List.mem_cons_of_mem x hz))
    simp [this]

theorem identOf_ne_nil {msg : List Char} (h : digitRuns msg ≠ []) :
    identOf msg ≠ [] := by
  cases hdr : digitRuns msg with
  | nil => exact absurd hdr h
  | cons r rs =>
    obtain ⟨pre, post, hdec, -, -⟩ := pickMax_first_longest r rs
    have hmem : pickMax r rs ∈ r :: rs := by
      rw [hdec]
      exact List.mem_append_right pre (List.mem_cons_self _ _)
    have hne := digitRuns_ne_nil msg (pickMax r rs) (by rw [hdr]; exact hmem)
    simpa [identOf, hdr] using hne

/-! ### Claim theorems -/

/-- C1 counterexample: in the message `"12 12"` the chosen identifier is
`"12"`; the code's template is `"<ID> <ID>"` (both occurrences replaced by
`re.sub`), while the claim's replace-only-the-first-occurrence reading
predicts `"<ID> 12"`. -/
theorem extract_not_first_only_cex :
    extract ("12 12".data) = some ("<ID> <ID>".data, "12".data) ∧
    pyStrip (replaceFirst ("12".data) PLACEHOLDER ("12 12".data)) = "<ID> 12".data ∧
    ("<ID> <ID>".data : List Char) ≠ "<ID> 12".data := by
  refine ⟨by decide, by decide, by decide⟩

/-- C1 (amended): for every message with at least one digit run, the
template equals the message with every non-overlapping occurrence of the
chosen identifier substring (scanning left to right) replaced by `<ID>`,
then stripped of leading and trailing whitespace: `replaceAll` leaves
occurrence-free strings unchanged and, at the first occurrence, substitutes
the placeholder and continues on the remainder, so occurrences after the
first are replaced as well. -/
theorem extract_template_replaces_all_occurrences (msg : List Char)
    (h : digitRuns msg ≠ []) :
    ∃ t id, extract msg = some (t, id) ∧
      t = pyStrip (replaceAll id PLACEHOLDER msg) ∧
      (∀ s, containsSub id s = false → replaceAll id PLACEHOLDER s = s) ∧
      (∀ a b : List Char,
        (∀ i, i < a.length → id.isPrefixOf ((a ++ (id ++ b)).drop i) = false) →
        replaceAll id PLACEHOLDER (a ++ (id ++ b)) =
          a ++ (PLACEHOLDER ++ replaceAll id PLACEHOLDER b)) := by
  refine ⟨tmplOf msg, identOf msg, extract_of_runs h, rfl,
    replaceAll_of_not_contains _ _, ?_⟩
  exact replaceAll_first_occurrence (identOf msg) PLACEHOLDER (identOf_ne_nil h)

/-- C1 witness: the amended statement instantiated at `"12 12"`, where both
occurrences of the identifier are replaced. -/
theorem extract_template_replaces_all_occurrences_witness :
    (digitRuns ("12 12".data) ≠ [] ∧
      (∃ t id, extract ("12 12".data) = some (t, id) ∧
        t = pyStrip (replaceAll id PLACEHOLDER ("12 12".data)) ∧
        (∀ s, containsSub id s = false → replaceAll id PLACEHOLDER s = s) ∧
        (∀ a b : List Char,
          (∀ i, i < a.length → id.isPrefixOf ((a ++ (id ++ b)).drop i) = false) →
          replaceAll id PLACEHOLDER (a ++ (id ++ b)) =
            a ++ (PLACEHOLDER ++ replaceAll id PLACEHOLDER b)))) ∧
    extract ("12 12".data) = some ("<ID> <ID>".data, "12".data) :=
  ⟨⟨by decide, extract_template_replaces_all_occurrences ("12 12".data) (by decide)⟩,
    by decide⟩

/-- C2: for every message with at least one digit run, the extracted
identifier is a digit run of maximal length, and every run occurring before
it is strictly shorter (the leftmost run wins an equal-length tie). -/
theorem extract_identifier_longest_leftmost (msg : List Char)
    (h : digitRuns msg ≠ []) :
    ∃ t id pre post, extract msg = some (t, id) ∧
      digitRuns msg = pre ++ id :: post ∧
      (∀ r ∈ digitRuns msg, r.length ≤ id.length) ∧
      (∀ r ∈ pre, r.length < id.length) := by
  cases hdr : digitRuns msg with
  | nil => exact absurd hdr h
  | cons r rs =>
    obtain ⟨pre, post, hdec, hle, hlt⟩ := pickMax_first_longest r rs
    have hid : identOf msg = pickMax r rs := by simp [identOf, hdr]
    refine ⟨tmplOf msg, identOf msg, pre, post, extract_of_runs h, ?_, ?_, ?_⟩
    · rw [hid]; exact hdec
    · intro r' hr'
      rw [hid]
      exact hle r' hr'
    · intro r' hr'
      rw [hid]
      exact hlt r' hr'

/-- C2 witness: in `"12 and 34"` both runs have length 2 and the identifier
is the first-occurring run `"12"`. -/
theorem extract_identifier_longest_leftmost_witness :
    (digitRuns ("12 and 34".data) ≠ [] ∧
      (∃ t id pre post, extract ("12 and 34".data) = some (t, id) ∧
        digitRuns ("12 and 34".data) = pre ++ id :: post ∧
        (∀ r ∈ digitRuns ("12 and 34".data), r.length ≤ id.length) ∧
        (∀ r ∈ pre, r.length < id.length))) ∧
    extract ("12 and 34".data) = some ("<ID> and 34".data, "12".data) :=
  ⟨⟨by decide, extract_identifier_longest_leftmost ("12 and 34".data) (by decide)⟩,
    by decide⟩

/-- C3: for a non-empty message list in which every message has a digit run,
`analyze_messages` returns `none` when the per-message templates are not all
identical, and otherwise the single shared template together with the
extracted identifiers, one per message, in input order. -/
theorem analyze_messages_shared_template (msgs : List (List Char))
    (hne : msgs ≠ []) (hall : ∀ m ∈ msgs, digitRuns m ≠ []) :
    (¬ (∃ t0, ∀ m ∈ msgs, tmplOf m = t0) → analyze_messages msgs = none) ∧
    (∀ t0, (∀ m ∈ msgs, tmplOf m = t0) →
      analyze_messages msgs = some ⟨t0, msgs.map identOf⟩) := by
  have hc := collect_of_runs msgs hall
  have hmapne : msgs.map tmplOf ≠ [] := by
    cases msgs with
    | nil => exact absurd rfl hne
    | cons m ms => simp
  constructor
  · intro hnot
    have hguard : (msgs.map tmplOf).dedup.length ≠ 1 := by
      intro hg
      apply hnot
      obtain ⟨a, ha⟩ := (dedup_length_eq_one _ hmapne).mp hg
      exact ⟨a, fun m hm => ha (tmplOf m) (List.mem_map_of_mem _ hm)⟩
    simp only [analyze_messages, hc, if_neg hguard]
  · intro t0 ht0
    have hguard : (msgs.map tmplOf).dedup.length = 1 := by
      apply (dedup_length_eq_one _ hmapne).mpr
      refine ⟨t0, fun x hx => ?_⟩
      obtain ⟨m, hm, rfl⟩ := List.mem_map.mp hx
      exact ht0 m hm
    cases msgs with
    | nil => exact absurd rfl hne
    | cons m ms =>
      have hm0 : tmplOf m = t0 := ht0 m (List.mem_cons_self m ms)
      have hguard' : (t0 :: List.map tmplOf ms).dedup.length = 1 := by
        simpa [List.map_cons, hm0] using hguard
      simp only [analyze_messages, hc, List.map_cons, List.getElem?_cons_zero, hm0]
      rw [if_pos hguard']

/-- C3 witness: the spec's single-template example, two OTP messages with a
shared template and identifiers in input order. -/
theorem analyze_messages_shared_template_witness :
    ((["OTP 5521 sent".data, "OTP 7734 sent".data] : List (List Char)) ≠ [] ∧
      (∀ m ∈ (["OTP 5521 sent".data, "OTP 7734 sent".data] : List (List Char)),
        digitRuns m ≠ []) ∧
      ((¬ (∃ t0, ∀ m ∈ (["OTP 5521 sent".data, "OTP 7734 sent".data] : List (List Char)),
          tmplOf m = t0) →
        analyze_messages ["OTP 5521 sent".data, "OTP 7734 sent".data] = none) ∧
       (∀ t0, (∀ m ∈ (["OTP 5521 sent".data, "OTP 7734 sent".data] : List (List Char)),
          tmplOf m = t0) →
        analyze_messages ["OTP 5521 sent".data, "OTP 7734 sent".data]
          = some ⟨t0, (["OTP 5521 sent".data, "OTP 7734 sent".data] : List (List Char)).map identOf⟩))) ∧
    analyze_messages ["OTP 5521 sent".data, "OTP 7734 sent".data]
      = some ⟨"OTP <ID> sent".data, ["5521".data, "7734".data]⟩ :=
  ⟨⟨by decide, by decide,
    analyze_messages_shared_template _ (by decide) (by decide)⟩, by decide⟩

/-- C4: if any message of the group has no digit run, classification of the
whole group returns `none` (all-or-nothing). -/
theorem analyze_messages_all_or_nothing (msgs : List (List Char))
    (h : ∃ m ∈ msgs, digitRuns m = []) :
    analyze_messages msgs = none := by
  simp only [analyze_messages, collect_none_of_missing_runs msgs h]

/-- C4 witness: the spec's all-or-nothing example; the third message has no
digits, so the whole group fails although the first two messages do. -/
theorem analyze_messages_all_or_nothing_witness :
    (∃ m ∈ (["Code 111".data, "Code 222".data, "No digits here".data] : List (List Char)),
      digitRuns m = []) ∧
    analyze_messages ["Code 111".data, "Code 222".data, "No digits here".data] = none :=
  ⟨by decide, analyze_messages_all_or_nothing _ (by decide)⟩

/-- C5: `analyze_messages` applied to the empty message list returns `none`
(the pattern list is empty, so `len(set(patterns)) == 1` fails). -/
theorem analyze_messages_empty_none : analyze_messages [] = none := by decide

/-- C6: whenever `analyze_messages` returns a result, its identifier list
has the same length as the input message list. -/
theorem analyze_messages_identifier_count (msgs : List (List Char))
    (r : AnalysisResult) (h : analyze_messages msgs = some r) :
    r.identifiers.length = msgs.length := by
  cases hc : collect msgs with
  | none => simp [analyze_messages, hc] at h
  | some q =>
    obtain ⟨ps, ids⟩ := q
    by_cases hg : ps.dedup.length = 1
    · cases hp : ps[0]? with
      | none => simp [analyze_messages, hc, hg, hp] at h
      | some p =>
        simp only [analyze_messages, hc, if_pos hg, hp, Option.some.injEq] at h
        subst h
        exact (collect_lengths msgs ps ids hc).2
    · simp [analyze_messages, hc, hg] at h

/-- C6 witness: the spec's end-to-end example with three messages and three
identifiers. -/
theorem analyze_messages_identifier_count_witness :
    analyze_messages
        ["Your code is 9081".data, "Your code is 1234".data, "Your code is 5567".data]
      = some ⟨"Your code is <ID>".data, ["9081".data, "1234".data, "5567".data]⟩ ∧
    (AnalysisResult.mk ("Your code is <ID>".data)
        ["9081".data, "1234".data, "5567".data]).identifiers.length
      = (["Your code is 9081".data, "Your code is 1234".data,
          "Your code is 5567".data] : List (List Char)).length :=
  ⟨by decide, analyze_messages_identifier_count _ _ (by decide)⟩

/-- C10: the index access `patterns[0]` is evaluated only under the guard
`len(set(patterns)) == 1`, which forces the accumulated pattern list to be
non-empty, so the access yields a value and `analyze_messages` returns
successfully; the model's arm for an out-of-range access is never taken. -/
theorem analyze_messages_index_safe (msgs : List (List Char))
    (ps ids : List (List Char)) (hc : collect msgs = some (ps, ids))
    (hg : ps.dedup.length = 1) :
    ∃ p, ps[0]? = some p ∧ analyze_messages msgs = some ⟨p, ids⟩ := by
  cases ps with
  | nil => simp [List.dedup] at hg
  | cons p ps' =>
    refine ⟨p, by simp, ?_⟩
    simp only [analyze_messages, hc, if_pos hg, List.getElem?_cons_zero]

/-- C10 witness: a one-message group where the guard holds and the head
pattern is returned. -/
theorem analyze_messages_index_safe_witness :
    collect ["Total 7 units".data] = some (["Total <ID> units".data], ["7".data]) ∧
    (["Total <ID> units".data] : List (List Char)).dedup.length = 1 ∧
    (∃ p, (["Total <ID> units".data] : List (List Char))[0]? = some p ∧
      analyze_messages ["Total 7 units".data] = some ⟨p, ["7".data]⟩) :=
  ⟨by decide, by decide, analyze_messages_index_safe _ _ _ (by decide) (by decide)⟩

theorem bucketLabel_eq_bucketSpec {id : List Char} (h : id ≠ []) :
    bucketLabel id = bucketSpec id := by
  have hne : id.isEmpty = false := by simp [h]
  simp [bucketLabel, bucketSpec, pyIsDigit, pyIsAlnum, hne]

/-- C7: each identifier contributes exactly one bucket label, decided by the
spec's conditions (all digits, else all alphanumeric, else mixed), and the
output is the distinct labels, sorted lexicographically by code point,
joined with `" | "`. Identifiers are non-empty strings (a digit run is never
empty). -/
theorem get_identifier_type_buckets (ids : List (List Char))
    (h : ∀ id ∈ ids, id ≠ []) :
    ∃ L, get_identifier_type ids = String.intercalate sepBar L ∧
      L.Sorted (fun a b => strLeb a b = true) ∧
      L.Nodup ∧
      (∀ s, s ∈ L ↔ ∃ id ∈ ids, bucketSpec id = s) := by
  refine ⟨List.insertionSort (fun a b => strLeb a b = true) ((ids.map bucketLabel).dedup),
    rfl, List.sorted_insertionSort _ _, ?_, ?_⟩
  · exact ((List.perm_insertionSort _ _).nodup_iff).mpr (List.nodup_dedup _)
  · intro s
    rw [(List.perm_insertionSort _ _).mem_iff, List.mem_dedup, List.mem_map]
    constructor
    · rintro ⟨id, hid, rfl⟩
      exact ⟨id, hid, (bucketLabel_eq_bucketSpec (h id hid)).symm⟩
    · rintro ⟨id, hid, rfl⟩
      exact ⟨id, hid, bucketLabel_eq_bucketSpec (h id hid)⟩

/-- C7 witness: the spec's format-summary example
`["1234", "ab12", "7777"]`, whose buckets sort to
`"4-digit alphanumeric | 4-digit numeric"`. -/
theorem get_identifier_type_buckets_witness :
    ((∀ id ∈ (["1234".data, "ab12".data, "7777".data] : List (List Char)), id ≠ []) ∧
      (∃ L, get_identifier_type ["1234".data, "ab12".data, "7777".data]
          = String.intercalate sepBar L ∧
        L.Sorted (fun a b => strLeb a b = true) ∧
        L.Nodup ∧
        (∀ s, s ∈ L ↔
          ∃ id ∈ (["1234".data, "ab12".data, "7777".data] : List (List Char)),
            bucketSpec id = s))) ∧
    get_identifier_type ["1234".data, "ab12".data, "7777".data]
      = "4-digit alphanumeric | 4-digit numeric" :=
  ⟨⟨by decide, get_identifier_type_buckets _ (by decide)⟩, by decide⟩

/-- C8: the format summary is order-independent: permuting the identifier
list leaves the result unchanged. -/
theorem get_identifier_type_order_independent (l1 l2 : List (List Char))
    (h : l1.Perm l2) : get_identifier_type l1 = get_identifier_type l2 := by
  unfold get_identifier_type
  congr 1
  refine List.eq_of_perm_of_sorted ?_
    (List.sorted_insertionSort _ _) (List.sorted_insertionSort _ _)
  exact (List.perm_insertionSort _ _).trans
    (((h.map bucketLabel).dedup).trans (List.perm_insertionSort _ _).symm)

/-- C8 witness: swapping two identifiers leaves the summary unchanged. -/
theorem get_identifier_type_order_independent_witness :
    (["1234".data, "ab12".data] : List (List Char)).Perm ["ab12".data, "1234".data] ∧
    get_identifier_type ["1234".data, "ab12".data]
      = get_identifier_type ["ab12".data, "1234".data] :=
  ⟨List.Perm.swap ("ab12".data) ("1234".data) [],
    get_identifier_type_order_independent _ _
      (List.Perm.swap ("ab12".data) ("1234".data) [])⟩

/-- C9: a destination number is selected as a candidate (and hence passed to
the classifier) iff it occurs in at least `MIN_OCCURRENCES` (3) traffic rows
and is not present in the known-numbers registry. -/
theorem candidate_selection_iff (rows known : List String) (n : String) :
    n ∈ candidateNumbers rows known ↔
      (MIN_OCCURRENCES ≤ rows.count n ∧ n ∉ known) := by
  simp only [candidateNumbers, List.mem_filter, List.mem_dedup, decide_eq_true_eq]
  constructor
  · rintro ⟨⟨-, hcount⟩, hknown⟩
    exact ⟨hcount, hknown⟩
  · rintro ⟨hcount, hknown⟩
    have h3 : MIN_OCCURRENCES = 3 := rfl
    have hpos : 0 < rows.count n := by omega
    exact ⟨⟨List.count_pos_iff.mp hpos, hcount⟩, hknown⟩

